import Mathlib

/-!
Verification of the LRU cache simulator `csim.c` (erikmetzig/cache_simulator).

Shallow embedding notes:
* `mem_addr_t` (C `unsigned long long`) is modelled as `Nat`; every operation the
  simulator performs on addresses (masking, shifting) only decreases the value,
  so no 64-bit wraparound can occur and `Nat` is faithful for all 64-bit inputs.
* The per-line `counter` field (C `int`) only ever holds values `≥ 0`
  (it is initialised to 0 and only ever set to `max + 1` for a scanned maximum),
  so it is modelled as `Nat`.
* The C `valid` field is a `char` holding `'0'` or `'1'`; it is modelled as `Bool`.
* The cache is a `malloc`ed array of `S = 2^s` sets of `E` lines each.  It is
  modelled as a total function from set index to a list of lines; the simulator
  only ever reads set indices below `2^s` (they come out of an `s`-bit mask),
  so the extra domain is never touched.
* `pow(2, k)` in the C source is floating point; for the 64-bit geometries the
  program supports (`s + b ≤ 63`) the double value is exact, so it is modelled
  as the exact `2 ^ k`.
* The eviction branch of `accessData` writes `cache[targSet][minIndex]` without
  checking `minIndex`.  The scan initialises `minIndex = -1` and `min = 5000`,
  so when every counter in the set is `≥ 5000` the write goes through index
  `-1`: an out-of-bounds array write, undefined behaviour in C.  The spec
  classifies an out-of-range line index as a fatal programming error, so the
  model returns `none` exactly when that branch runs with `minIndex` outside
  `[0, E)`; all in-range behaviour is modelled exactly.
-/

namespace CacheSim

/-- Cache line: mirrors `cache_line_t` of `csim.c` (`valid` char flag,
64-bit `tag`, LRU `counter`). -/
structure CacheLine where
  valid   : Bool
  tag     : Nat
  counter : Nat
deriving DecidableEq, Repr

/-- Whole simulator state: the cache storage (set index → lines of that set)
together with the three global statistic counters of `csim.c`. -/
structure SimState where
  cache          : Nat → List CacheLine
  hit_count      : Nat
  miss_count     : Nat
  eviction_count : Nat

/-- Set-index extraction of `accessData`: build the mask
`pow(2,s+b) - 1 - (pow(2,b) - 1)`, AND it onto the address, shift right by `b`. -/
def setIndexOf (s b addr : Nat) : Nat :=
  let mask := 2 ^ (s + b) - 1 - (2 ^ b - 1)
  (addr &&& mask) >>> b

/-- Tag extraction of `accessData`: `targTag = addr >> (s + b)`. -/
def tagOf (s b addr : Nat) : Nat :=
  addr >>> (s + b)

/-- First scan loop of `accessData`: running over the lines of the target set it
keeps the smallest counter seen (`min`, started at the sentinel 5000, with the
index `minIndex` started at -1) and the largest counter seen (`max`, started
at 0).  `j` is the index of the head of the remaining list. -/
def scanMinMax : List CacheLine → Nat → Nat → Int → Nat → Nat × Int × Nat
  | [], _, mn, mnIdx, mx => (mn, mnIdx, mx)
  | l :: rest, j, mn, mnIdx, mx =>
    let p := if l.counter < mn then (l.counter, (j : Int)) else (mn, mnIdx)
    let mx' := if mx < l.counter then l.counter else mx
    scanMinMax rest (j + 1) p.1 p.2 mx'

/-- Second scan loop of `accessData`: index of the first line that is valid and
holds the target tag (the loop `break`s at the first match). -/
def findHit : List CacheLine → Nat → Option Nat
  | [], _ => none
  | l :: rest, t =>
    if l.valid && (l.tag == t) then some 0
    else (findHit rest t).map (· + 1)

/-- Third scan loop of `accessData`: index of the first line with `valid == '0'`
(the loop `break`s at the first empty line). -/
def findEmpty : List CacheLine → Option Nat
  | [] => none
  | l :: rest =>
    if l.valid then (findEmpty rest).map (· + 1) else some 0

/-- Pointwise update of the set array at set index `t` (the C code mutates
`cache[targSet]` in place). -/
def updateSets (c : Nat → List CacheLine) (t : Nat) (v : List CacheLine) :
    Nat → List CacheLine :=
  fun x => if x = t then v else c x

/-- In-place update of the line at index `i` of a set (array element
assignment in the C source). -/
def modifyLine : List CacheLine → Nat → (CacheLine → CacheLine) → List CacheLine
  | [], _, _ => []
  | l :: rest, 0, f => f l :: rest
  | l :: rest, i + 1, f => l :: modifyLine rest i f

/-- `accessData(addr)` of `csim.c`.  Decomposes the address, scans the target
set for the min/max counters, then:
* hit (first valid line with the target tag): `hit_count++`, its counter
  becomes `max + 1`;
* miss with an empty line: `miss_count++`, the first empty line is filled
  (`valid = '1'`, target tag, counter `max + 1`);
* miss with no empty line: `miss_count++`, `eviction_count++`, the line at
  `minIndex` gets the target tag and counter `max + 1`.  The C code performs
  this write unconditionally; the model returns `none` when `minIndex` is not a
  valid line index (the out-of-bounds write / fatal-error case). -/
def accessData (s b addr : Nat) (st : SimState) : Option SimState :=
  let targSet := setIndexOf s b addr
  let targTag := tagOf s b addr
  let lineSet := st.cache targSet
  let scanned := scanMinMax lineSet 0 5000 (-1) 0
  let mnIdx := scanned.2.1
  let mx := scanned.2.2
  match findHit lineSet targTag with
  | some i =>
      some { st with
        cache := updateSets st.cache targSet
          (modifyLine lineSet i (fun l => { l with counter := mx + 1 })),
        hit_count := st.hit_count + 1 }
  | none =>
      match findEmpty lineSet with
      | some k =>
          some { st with
            cache := updateSets st.cache targSet
              (modifyLine lineSet k (fun _ => ⟨true, targTag, mx + 1⟩)),
            miss_count := st.miss_count + 1 }
      | none =>
          if 0 ≤ mnIdx ∧ mnIdx < (lineSet.length : Int) then
            some { st with
              cache := updateSets st.cache targSet
                (modifyLine lineSet mnIdx.toNat
                  (fun l => { l with tag := targTag, counter := mx + 1 })),
              miss_count := st.miss_count + 1,
              eviction_count := st.eviction_count + 1 }
          else none

/-- `initCache()` of `csim.c` together with the zero-initialised global
counters: every one of the `E` lines of every set starts empty
(`valid = '0'`, `tag = 0`, `counter = 0`). -/
def initCache (E : Nat) : SimState :=
  { cache := fun _ => List.replicate E ⟨false, 0, 0⟩,
    hit_count := 0,
    miss_count := 0,
    eviction_count := 0 }

/-- Run a sequence of raw accesses (successive `accessData` calls), stopping
with `none` if any call takes the fatal out-of-bounds branch. -/
def runAccesses (s b : Nat) : List Nat → SimState → Option SimState
  | [], st => some st
  | a :: rest, st =>
    match accessData s b a st with
    | some st' => runAccesses s b rest st'
    | none => none

/-- Kind of a data-access trace event (instruction events are filtered out
before reaching `accessData`). -/
inductive TraceOp where
  | load
  | store
  | modify
deriving DecidableEq, Repr

/-- One parsed trace event: an operation kind and a 64-bit address. -/
structure TraceEvent where
  op   : TraceOp
  addr : Nat

/-- Accesses generated by one event in `replayTrace`: `L` and `S` call
`accessData` once, `M` calls it twice with the identical address. -/
def expandEvent (e : TraceEvent) : List Nat :=
  match e.op with
  | .load => [e.addr]
  | .store => [e.addr]
  | .modify => [e.addr, e.addr]

/-- `replayTrace` of `csim.c`, restricted to its interaction with the core:
each event is expanded into its `accessData` calls, in order. -/
def replayTrace (s b : Nat) : List TraceEvent → SimState → Option SimState
  | [], st => some st
  | e :: rest, st =>
    match runAccesses s b (expandEvent e) st with
    | some st' => replayTrace s b rest st'
    | none => none

/-- Number of `accessData` calls a list of events expands to
(1 per load/store, 2 per modify). -/
def expandedCount : List TraceEvent → Nat
  | [] => 0
  | e :: rest => (expandEvent e).length + expandedCount rest

/-! ### Basic lemmas about the scan loops and line updates -/

theorem findHit_eq_none_iff (lines : List CacheLine) (t : Nat) :
    findHit lines t = none ↔ ∀ l ∈ lines, l.valid = true → l.tag ≠ t := by
  induction lines with
  | nil => simp [findHit]
  | cons l rest ih =>
    by_cases hv : l.valid = true <;> by_cases ht : l.tag = t <;>
      simp [findHit, hv, ht, ih]

theorem findHit_eq_some (lines : List CacheLine) (t i : Nat)
    (h : findHit lines t = some i) :
    ∃ hi : i < lines.length,
      (lines.get ⟨i, hi⟩).valid = true ∧ (lines.get ⟨i, hi⟩).tag = t := by
  induction lines generalizing i with
  | nil => simp [findHit] at h
  | cons l rest ih =>
    by_cases hm : l.valid && (l.tag == t)
    · simp [findHit, hm] at h
      subst h
      simp only [Bool.and_eq_true, beq_iff_eq] at hm
      exact ⟨Nat.succ_pos _, hm.1, hm.2⟩
    · simp only [findHit, if_neg hm, Option.map_eq_some'] at h
      obtain ⟨j, hj, rfl⟩ := h
      obtain ⟨hjl, hv, ht⟩ := ih j hj
      exact ⟨Nat.succ_lt_succ hjl, hv, ht⟩

theorem findEmpty_eq_none_iff (lines : List CacheLine) :
    findEmpty lines = none ↔ ∀ l ∈ lines, l.valid = true := by
  induction lines with
  | nil => simp [findEmpty]
  | cons l rest ih =>
    by_cases hv : l.valid <;> simp [findEmpty, hv, ih]

theorem findEmpty_eq_some (lines : List CacheLine) (k : Nat)
    (h : findEmpty lines = some k) :
    ∃ hk : k < lines.length, (lines.get ⟨k, hk⟩).valid = false := by
  induction lines generalizing k with
  | nil => simp [findEmpty] at h
  | cons l rest ih =>
    by_cases hv : l.valid
    · simp only [findEmpty, if_pos hv, Option.map_eq_some'] at h
      obtain ⟨j, hj, rfl⟩ := h
      obtain ⟨hjl, hinv⟩ := ih j hj
      exact ⟨Nat.succ_lt_succ hjl, hinv⟩
    · simp [findEmpty, hv] at h
      subst h
      exact ⟨Nat.succ_pos _, by simpa using hv⟩

theorem modifyLine_length (lines : List CacheLine) (i : Nat)
    (f : CacheLine → CacheLine) :
    (modifyLine lines i f).length = lines.length := by
  induction lines generalizing i with
  | nil => rfl
  | cons l rest ih =>
    cases i with
    | zero => rfl
    | succ j => simpa [modifyLine] using ih j

theorem modifyLine_get? (lines : List CacheLine) (i : Nat)
    (f : CacheLine → CacheLine) (j : Nat) :
    (modifyLine lines i f).get? j =
      if j = i then (lines.get? j).map f else lines.get? j := by
  induction lines generalizing i j with
  | nil => simp [modifyLine]
  | cons l rest ih =>
    cases i with
    | zero =>
      cases j with
      | zero => simp [modifyLine]
      | succ j' => simp [modifyLine]
    | succ i' =>
      cases j with
      | zero => simp [modifyLine]
      | succ j' => simpa [modifyLine, Nat.succ_inj] using ih i' j'

/-! ### Branch shapes of `accessData` -/

theorem accessData_hit_eq (s b addr : Nat) (st : SimState) (i : Nat)
    (h : findHit (st.cache (setIndexOf s b addr)) (tagOf s b addr) = some i) :
    accessData s b addr st = some { st with
      cache := updateSets st.cache (setIndexOf s b addr)
        (modifyLine (st.cache (setIndexOf s b addr)) i (fun l =>
          { l with counter :=
              (scanMinMax (st.cache (setIndexOf s b addr)) 0 5000 (-1) 0).2.2 + 1 })),
      hit_count := st.hit_count + 1 } := by
  simp only [accessData, h]

theorem accessData_fill_eq (s b addr : Nat) (st : SimState) (k : Nat)
    (h : findHit (st.cache (setIndexOf s b addr)) (tagOf s b addr) = none)
    (he : findEmpty (st.cache (setIndexOf s b addr)) = some k) :
    accessData s b addr st = some { st with
      cache := updateSets st.cache (setIndexOf s b addr)
        (modifyLine (st.cache (setIndexOf s b addr)) k (fun _ =>
          ⟨true, tagOf s b addr,
            (scanMinMax (st.cache (setIndexOf s b addr)) 0 5000 (-1) 0).2.2 + 1⟩)),
      miss_count := st.miss_count + 1 } := by
  simp only [accessData, h, he]

theorem accessData_evict_eq (s b addr : Nat) (st : SimState)
    (h : findHit (st.cache (setIndexOf s b addr)) (tagOf s b addr) = none)
    (he : findEmpty (st.cache (setIndexOf s b addr)) = none)
    (hr : 0 ≤ (scanMinMax (st.cache (setIndexOf s b addr)) 0 5000 (-1) 0).2.1 ∧
          (scanMinMax (st.cache (setIndexOf s b addr)) 0 5000 (-1) 0).2.1 <
            ((st.cache (setIndexOf s b addr)).length : Int)) :
    accessData s b addr st = some { st with
      cache := updateSets st.cache (setIndexOf s b addr)
        (modifyLine (st.cache (setIndexOf s b addr))
          (scanMinMax (st.cache (setIndexOf s b addr)) 0 5000 (-1) 0).2.1.toNat
          (fun l => { l with
            tag := tagOf s b addr,
            counter :=
              (scanMinMax (st.cache (setIndexOf s b addr)) 0 5000 (-1) 0).2.2 + 1 })),
      miss_count := st.miss_count + 1,
      eviction_count := st.eviction_count + 1 } := by
  simp only [accessData, h, he, if_pos hr]

theorem accessData_evict_none (s b addr : Nat) (st : SimState)
    (h : findHit (st.cache (setIndexOf s b addr)) (tagOf s b addr) = none)
    (he : findEmpty (st.cache (setIndexOf s b addr)) = none)
    (hr : ¬ (0 ≤ (scanMinMax (st.cache (setIndexOf s b addr)) 0 5000 (-1) 0).2.1 ∧
             (scanMinMax (st.cache (setIndexOf s b addr)) 0 5000 (-1) 0).2.1 <
               ((st.cache (setIndexOf s b addr)).length : Int))) :
    accessData s b addr st = none := by
  simp only [accessData, h, he, if_neg hr]

/-- Case analysis on a successful `accessData` call: it is a hit, a fill of an
empty line, or an eviction, and each case fixes how the three counters move. -/
theorem accessData_cases (s b addr : Nat) (st st' : SimState)
    (h : accessData s b addr st = some st') :
    (st'.hit_count = st.hit_count + 1 ∧ st'.miss_count = st.miss_count ∧
      st'.eviction_count = st.eviction_count) ∨
    (st'.hit_count = st.hit_count ∧ st'.miss_count = st.miss_count + 1 ∧
      st'.eviction_count = st.eviction_count ∧
      findEmpty (st.cache (setIndexOf s b addr)) ≠ none) ∨
    (st'.hit_count = st.hit_count ∧ st'.miss_count = st.miss_count + 1 ∧
      st'.eviction_count = st.eviction_count + 1 ∧
      findEmpty (st.cache (setIndexOf s b addr)) = none) := by
  simp only [accessData] at h
  split at h
  · cases h
    exact Or.inl ⟨rfl, rfl, rfl⟩
  · split at h
    · rename_i heq
      cases h
      exact Or.inr (Or.inl ⟨rfl, rfl, rfl, by simp [heq]⟩)
    · rename_i heq
      split at h
      · cases h
        exact Or.inr (Or.inr ⟨rfl, rfl, rfl, heq⟩)
      · cases h

/-! ### Run composition lemmas -/

theorem runAccesses_append (s b : Nat) (as bs : List Nat) (st : SimState) :
    runAccesses s b (as ++ bs) st =
      (runAccesses s b as st).bind (runAccesses s b bs) := by
  induction as generalizing st with
  | nil => simp [runAccesses]
  | cons a rest ih =>
    simp only [List.cons_append, runAccesses]
    cases accessData s b a st with
    | none => simp
    | some st' => simpa using ih st'

theorem runAccesses_hit_miss (s b : Nat) (as : List Nat) (st st' : SimState)
    (h : runAccesses s b as st = some st') :
    st'.hit_count + st'.miss_count = st.hit_count + st.miss_count + as.length := by
  induction as generalizing st with
  | nil =>
    simp only [runAccesses, Option.some.injEq] at h
    subst h; simp
  | cons a rest ih =>
    simp only [runAccesses] at h
    cases ha : accessData s b a st with
    | none => rw [ha] at h; cases h
    | some st₁ =>
      rw [ha] at h
      have hstep := accessData_cases s b a st st₁ ha
      have hrec := ih st₁ h
      simp only [List.length_cons]
      rcases hstep with ⟨h1, h2, _⟩ | ⟨h1, h2, _⟩ | ⟨h1, h2, _⟩ <;> omega

theorem runAccesses_evict_le (s b : Nat) (as : List Nat) (st st' : SimState)
    (h : runAccesses s b as st = some st')
    (hinv : st.eviction_count ≤ st.miss_count) :
    st'.eviction_count ≤ st'.miss_count := by
  induction as generalizing st with
  | nil =>
    simp only [runAccesses, Option.some.injEq] at h
    subst h; exact hinv
  | cons a rest ih =>
    simp only [runAccesses] at h
    cases ha : accessData s b a st with
    | none => rw [ha] at h; cases h
    | some st₁ =>
      rw [ha] at h
      have hstep := accessData_cases s b a st st₁ ha
      refine ih st₁ h ?_
      rcases hstep with ⟨_, h2, h3⟩ | ⟨_, h2, h3, _⟩ | ⟨_, h2, h3, _⟩ <;> omega

theorem replayTrace_eq_runAccesses (s b : Nat) (evs : List TraceEvent)
    (st : SimState) :
    replayTrace s b evs st =
      runAccesses s b (evs.foldr (fun e acc => expandEvent e ++ acc) []) st := by
  induction evs generalizing st with
  | nil => rfl
  | cons e rest ih =>
    simp only [replayTrace, List.foldr_cons, runAccesses_append]
    cases h : runAccesses s b (expandEvent e) st with
    | none => simp [h]
    | some st' => simp [h, ih st']

theorem expandedCount_eq_length (evs : List TraceEvent) :
    expandedCount evs = (evs.foldr (fun e acc => expandEvent e ++ acc) []).length := by
  induction evs with
  | nil => rfl
  | cons e rest ih => simp [expandedCount, ih]

theorem updateSets_same (c : Nat → List CacheLine) (t : Nat)
    (v : List CacheLine) : updateSets c t v t = v := by
  simp [updateSets]

theorem updateSets_other (c : Nat → List CacheLine) (t : Nat)
    (v : List CacheLine) (u : Nat) (h : u ≠ t) : updateSets c t v u = c u := by
  simp [updateSets, h]

theorem updateSets_idem (c : Nat → List CacheLine) (t : Nat)
    (v w : List CacheLine) : updateSets (updateSets c t v) t w = updateSets c t w := by
  funext x
  by_cases hx : x = t <;> simp [updateSets, hx]

/-- Characterisation of a successful hit scan: the first valid line carrying
the target tag, with no earlier match (the C loop `break`s at the first
match). -/
theorem findHit_eq_some_iff (lines : List CacheLine) (t i : Nat) :
    findHit lines t = some i ↔
      (∃ l, lines.get? i = some l ∧ l.valid = true ∧ l.tag = t) ∧
      ∀ j, j < i → ∀ l, lines.get? j = some l → l.valid = true → l.tag ≠ t := by
  induction lines generalizing i with
  | nil => simp [findHit]
  | cons l rest ih =>
    by_cases hm : (l.valid && (l.tag == t)) = true
    · have hm' : l.valid = true ∧ l.tag = t := by simpa using hm
      cases i with
      | zero =>
        simp only [findHit, if_pos hm]
        constructor
        · intro _
          exact ⟨⟨l, rfl, hm'⟩, fun j hj => absurd hj (Nat.not_lt_zero j)⟩
        · intro _
          trivial
      | succ i' =>
        simp only [findHit, if_pos hm]
        constructor
        · intro h
          simp at h
        · rintro ⟨_, hnone⟩
          exact absurd hm'.2 (hnone 0 (Nat.succ_pos _) l rfl hm'.1)
    · have hml : ¬ (l.valid = true ∧ l.tag = t) := by simpa using hm
      cases i with
      | zero =>
        simp only [findHit, if_neg hm]
        constructor
        · intro h
          simp at h
        · rintro ⟨⟨l', hl', hv, ht⟩, _⟩
          simp only [List.get?] at hl'
          cases hl'
          exact absurd ⟨hv, ht⟩ hml
      | succ i' =>
        simp only [findHit, if_neg hm, Option.map_eq_some']
        constructor
        · rintro ⟨j, hj, hji⟩
          have hj' : findHit rest t = some i' := by
            rw [Nat.succ.inj hji] at hj
            exact hj
          obtain ⟨hex, hnone⟩ := (ih i').mp hj'
          refine ⟨hex, ?_⟩
          intro k hk l' hl' hv ht
          cases k with
          | zero =>
            simp only [List.get?] at hl'
            cases hl'
            exact absurd ⟨hv, ht⟩ hml
          | succ k' =>
            exact hnone k' (Nat.lt_of_succ_lt_succ hk) l' hl' hv ht
        · rintro ⟨hex, hnone⟩
          refine ⟨i', ?_, rfl⟩
          refine (ih i').mpr ⟨hex, ?_⟩
          intro k hk l' hl' hv ht
          exact hnone (k + 1) (Nat.succ_lt_succ hk) l' hl' hv ht

/-- A miss (no valid line with the target tag) that completes increments the
miss counter and leaves the hit counter alone. -/
theorem accessData_miss_counts (s b a : Nat) (st st' : SimState)
    (hfh : findHit (st.cache (setIndexOf s b a)) (tagOf s b a) = none)
    (hacc : accessData s b a st = some st') :
    st'.hit_count = st.hit_count ∧ st'.miss_count = st.miss_count + 1 := by
  simp only [accessData, hfh] at hacc
  split at hacc
  · cases hacc; exact ⟨rfl, rfl⟩
  · split at hacc
    · cases hacc; exact ⟨rfl, rfl⟩
    · cases hacc

/-- A completed miss in a set with no empty line increments both the miss and
the eviction counter. -/
theorem accessData_evict_counts (s b a : Nat) (st st' : SimState)
    (hfh : findHit (st.cache (setIndexOf s b a)) (tagOf s b a) = none)
    (hfe : findEmpty (st.cache (setIndexOf s b a)) = none)
    (hacc : accessData s b a st = some st') :
    st'.hit_count = st.hit_count ∧ st'.miss_count = st.miss_count + 1 ∧
    st'.eviction_count = st.eviction_count + 1 := by
  simp only [accessData, hfh, hfe] at hacc
  split at hacc
  · cases hacc; exact ⟨rfl, rfl, rfl⟩
  · cases hacc

/-! ### Claim theorems -/

/-- Claim C5: for every address and geometry, the set index computed by
`accessData` (mask `2^(s+b) - 1 - (2^b - 1)`, AND, shift by `b`) equals the
spec formula `(address >> b) & (2^s - 1)`, and the tag equals
`address >> (s + b)`.  Proved for all `s`, `b` and addresses, which covers the
claimed positive geometries and 64-bit addresses. -/
theorem setIndex_tag_match_spec (s b addr : Nat) :
    setIndexOf s b addr = (addr >>> b) &&& (2 ^ s - 1) ∧
    tagOf s b addr = addr >>> (s + b) := by
  refine ⟨?_, rfl⟩
  unfold setIndexOf
  have hmask : 2 ^ (s + b) - 1 - (2 ^ b - 1) = (2 ^ s - 1) <<< b := by
    rw [Nat.shiftLeft_eq]
    have h1 : (1 : Nat) ≤ 2 ^ b := Nat.one_le_two_pow
    have h2 : (2 : Nat) ^ b ≤ 2 ^ (s + b) :=
      Nat.pow_le_pow_right (by norm_num) (Nat.le_add_left _ _)
    have h3 : (2 ^ s - 1) * 2 ^ b = 2 ^ (s + b) - 2 ^ b := by
      rw [Nat.sub_mul, one_mul, ← Nat.pow_add]
    omega
  rw [hmask]
  apply Nat.eq_of_testBit_eq
  intro i
  simp only [Nat.testBit_shiftRight, Nat.testBit_and, Nat.testBit_shiftLeft,
    Nat.testBit_two_pow_sub_one, ge_iff_le, Nat.le_add_right, decide_True,
    Bool.true_and, Nat.add_sub_cancel_left]

/-- Claim C3: after a full trace replay from the initial cache,
`hit_count + miss_count` equals the number of expanded accesses (loads and
stores contribute one `accessData` call each, modifies two), because every
`accessData` call increments exactly one of the two counters. -/
theorem hit_plus_miss_counts_accesses (s b E : Nat) (evs : List TraceEvent)
    (st : SimState) (h : replayTrace s b evs (initCache E) = some st) :
    st.hit_count + st.miss_count = expandedCount evs := by
  rw [replayTrace_eq_runAccesses] at h
  have hcount := runAccesses_hit_miss s b _ _ _ h
  rw [expandedCount_eq_length]
  simpa [initCache] using hcount

/-- Witness for C3: the concrete trace load 0, modify 4 (three expanded
accesses) under geometry `s = 1`, `E = 1`, `b = 1`. -/
theorem hit_plus_miss_counts_accesses_witness :
    ((replayTrace 1 1 [⟨.load, 0⟩, ⟨.modify, 4⟩] (initCache 1)).getD
        (initCache 1)).hit_count +
      ((replayTrace 1 1 [⟨.load, 0⟩, ⟨.modify, 4⟩] (initCache 1)).getD
        (initCache 1)).miss_count =
      expandedCount [⟨.load, 0⟩, ⟨.modify, 4⟩] :=
  hit_plus_miss_counts_accesses 1 1 1 [⟨.load, 0⟩, ⟨.modify, 4⟩] _ (by rfl)

/-- Claim C4: `eviction_count ≤ miss_count` holds in the initial state (both
zero), is preserved by every successful `accessData` call (the eviction
counter moves only in the branch that also increments the miss counter), and
hence holds in every state reachable by a sequence of `accessData` calls. -/
theorem eviction_le_miss_invariant (s b E : Nat) :
    (initCache E).eviction_count ≤ (initCache E).miss_count ∧
    (∀ a st st', st.eviction_count ≤ st.miss_count →
      accessData s b a st = some st' →
      st'.eviction_count ≤ st'.miss_count) ∧
    (∀ as st, runAccesses s b as (initCache E) = some st →
      st.eviction_count ≤ st.miss_count) := by
  refine ⟨le_refl 0, ?_, ?_⟩
  · intro a st st' hinv h
    rcases accessData_cases s b a st st' h with
      ⟨_, h2, h3⟩ | ⟨_, h2, h3, _⟩ | ⟨_, h2, h3, _⟩ <;> omega
  · intro as st h
    exact runAccesses_evict_le s b as _ st h (le_refl 0)

/-- Witness for C4: the invariant instantiated at geometry `s = 1`, `E = 1`,
`b = 1` and the concrete access sequence 0, 4, 4 (a fill, an eviction, a
hit). -/
theorem eviction_le_miss_invariant_witness :
    ((runAccesses 1 1 [0, 4, 4] (initCache 1)).getD (initCache 1)).eviction_count ≤
    ((runAccesses 1 1 [0, 4, 4] (initCache 1)).getD (initCache 1)).miss_count :=
  (eviction_le_miss_invariant 1 1 1).2.2 [0, 4, 4] _ (by rfl)

/-- Claim C6: with associativity `E = 2`, starting from an empty set and
accessing three pairwise-distinct tags in the order A, B, A, C (all four
addresses mapping to the same set), the fourth access evicts the line holding
B: afterwards line 0 still holds tag A (recency 3) and line 1 holds tag C
(recency 4), with 1 hit, 3 misses and exactly 1 eviction. -/
theorem lru_evicts_least_recent (s b a0 a1 a2 : Nat)
    (hset1 : setIndexOf s b a1 = setIndexOf s b a0)
    (hset2 : setIndexOf s b a2 = setIndexOf s b a0)
    (ht01 : tagOf s b a0 ≠ tagOf s b a1)
    (ht02 : tagOf s b a0 ≠ tagOf s b a2)
    (ht12 : tagOf s b a1 ≠ tagOf s b a2) :
    (runAccesses s b [a0, a1, a0, a2] (initCache 2)).map
      (fun st => (st.cache (setIndexOf s b a0),
        st.hit_count, st.miss_count, st.eviction_count)) =
    some ([⟨true, tagOf s b a0, 3⟩, ⟨true, tagOf s b a2, 4⟩], 1, 3, 1) := by
  simp [runAccesses, accessData, initCache, scanMinMax, findHit, findEmpty,
    modifyLine, updateSets, hset1, hset2,
    ht01, ht02, ht12, Ne.symm ht01, Ne.symm ht02, Ne.symm ht12]

/-- Witness for C6: geometry `s = 1`, `b = 1`, addresses 0, 4, 8 (tags 0, 1, 2,
all mapping to set 0). -/
theorem lru_evicts_least_recent_witness :
    (runAccesses 1 1 [0, 4, 0, 8] (initCache 2)).map
      (fun st => (st.cache (setIndexOf 1 1 0),
        st.hit_count, st.miss_count, st.eviction_count)) =
    some ([⟨true, tagOf 1 1 0, 3⟩, ⟨true, tagOf 1 1 8, 4⟩], 1, 3, 1) :=
  lru_evicts_least_recent 1 1 0 4 8 (by decide) (by decide) (by decide)
    (by decide) (by decide)

/-- Resident tag: some line of the target set is valid and holds the tag of
address `a`. -/
def resident (s b a : Nat) (st : SimState) : Prop :=
  ∃ l ∈ st.cache (setIndexOf s b a), l.valid = true ∧ l.tag = tagOf s b a

instance (s b a : Nat) (st : SimState) : Decidable (resident s b a st) := by
  unfold resident
  infer_instance

/-- A resident access is a hit: only `hit_count` and the matched line's
counter change. -/
theorem accessData_hit_of_resident (s b a : Nat) (st : SimState)
    (hres : resident s b a st) :
    ∃ i st',
      findHit (st.cache (setIndexOf s b a)) (tagOf s b a) = some i ∧
      accessData s b a st = some st' ∧
      st'.hit_count = st.hit_count + 1 ∧
      st'.miss_count = st.miss_count ∧
      st'.eviction_count = st.eviction_count ∧
      (∀ u, u ≠ setIndexOf s b a → st'.cache u = st.cache u) ∧
      (∀ j, j ≠ i →
        (st'.cache (setIndexOf s b a)).get? j =
          (st.cache (setIndexOf s b a)).get? j) ∧
      (st'.cache (setIndexOf s b a)).get? i =
        ((st.cache (setIndexOf s b a)).get? i).map (fun l =>
          { l with counter :=
              (scanMinMax (st.cache (setIndexOf s b a)) 0 5000 (-1) 0).2.2 + 1 }) := by
  obtain ⟨l, hl, hv, ht⟩ := hres
  have hfh : findHit (st.cache (setIndexOf s b a)) (tagOf s b a) ≠ none := by
    intro hnone
    exact (findHit_eq_none_iff _ _).mp hnone l hl hv ht
  obtain ⟨i, hi⟩ := Option.ne_none_iff_exists'.mp hfh
  refine ⟨i, _, hi, accessData_hit_eq s b a st i hi, rfl, rfl, rfl, ?_, ?_, ?_⟩
  · intro u hu
    exact updateSets_other _ _ _ u hu
  · intro j hj
    dsimp only
    rw [updateSets_same, modifyLine_get?, if_neg hj]
  · dsimp only
    rw [updateSets_same, modifyLine_get?, if_pos rfl]

/-- Residency is preserved by a hit. -/
theorem resident_after_hit (s b a : Nat) (st : SimState)
    (hres : resident s b a st) :
    ∀ st', accessData s b a st = some st' → resident s b a st' := by
  intro st' hacc
  obtain ⟨i, st'', hi, hacc', _, _, _, _, _, hgeti⟩ :=
    accessData_hit_of_resident s b a st hres
  rw [hacc'] at hacc
  cases hacc
  obtain ⟨hilen, hv, ht⟩ := findHit_eq_some _ _ _ hi
  rw [List.get?_eq_get hilen] at hgeti
  exact ⟨_, List.get?_mem hgeti, hv, ht⟩

/-- Repeating a resident access `n` times always succeeds and never moves the
miss or eviction counters. -/
theorem runAccesses_replicate_hit (s b a n : Nat) (st : SimState)
    (hres : resident s b a st) :
    ∃ stN, runAccesses s b (List.replicate n a) st = some stN ∧
      stN.miss_count = st.miss_count ∧
      stN.eviction_count = st.eviction_count := by
  induction n generalizing st with
  | zero => exact ⟨st, rfl, rfl, rfl⟩
  | succ m ih =>
    obtain ⟨i, st', hi, hacc, hh, hm, he, _, _, _⟩ :=
      accessData_hit_of_resident s b a st hres
    obtain ⟨stN, hrun, hm2, he2⟩ :=
      ih st' (resident_after_hit s b a st hres st' hacc)
    refine ⟨stN, ?_, by omega, by omega⟩
    simp [List.replicate_succ, runAccesses, hacc, hrun]

/-- Claim C7: an access whose tag is resident in its set increments only
`hit_count`, leaves `miss_count` and `eviction_count` unchanged, changes
nothing but the matched line's counter (set to scanned max + 1: the valid
flag and tag of every line, and every other set, are untouched), and
repeating the access any number of times never moves `miss_count` or
`eviction_count`. -/
theorem hit_frame_effect (s b a : Nat) (st : SimState)
    (hres : resident s b a st) :
    ∃ i st',
      findHit (st.cache (setIndexOf s b a)) (tagOf s b a) = some i ∧
      accessData s b a st = some st' ∧
      st'.hit_count = st.hit_count + 1 ∧
      st'.miss_count = st.miss_count ∧
      st'.eviction_count = st.eviction_count ∧
      (∀ u, u ≠ setIndexOf s b a → st'.cache u = st.cache u) ∧
      (∀ j, j ≠ i →
        (st'.cache (setIndexOf s b a)).get? j =
          (st.cache (setIndexOf s b a)).get? j) ∧
      (st'.cache (setIndexOf s b a)).get? i =
        ((st.cache (setIndexOf s b a)).get? i).map (fun l =>
          { l with counter :=
              (scanMinMax (st.cache (setIndexOf s b a)) 0 5000 (-1) 0).2.2 + 1 }) ∧
      (∀ n, ∃ stN, runAccesses s b (List.replicate n a) st = some stN ∧
        stN.miss_count = st.miss_count ∧
        stN.eviction_count = st.eviction_count) := by
  obtain ⟨i, st', h1, h2, h3, h4, h5, h6, h7, h8⟩ :=
    accessData_hit_of_resident s b a st hres
  exact ⟨i, st', h1, h2, h3, h4, h5, h6, h7, h8,
    fun n => runAccesses_replicate_hit s b a n st hres⟩

/-- Concrete state for the C7 witness: one set of one valid line holding
tag 0 with recency 1. -/
def hitWitnessState : SimState :=
  { cache := fun _ => [⟨true, 0, 1⟩],
    hit_count := 0,
    miss_count := 1,
    eviction_count := 0 }

/-- Witness for C7: accessing address 0 (tag 0, resident) in
`hitWitnessState` under geometry `s = 1`, `b = 1`. -/
theorem hit_frame_effect_witness :
    ∃ i st',
      findHit (hitWitnessState.cache (setIndexOf 1 1 0)) (tagOf 1 1 0) = some i ∧
      accessData 1 1 0 hitWitnessState = some st' ∧
      st'.hit_count = hitWitnessState.hit_count + 1 ∧
      st'.miss_count = hitWitnessState.miss_count ∧
      st'.eviction_count = hitWitnessState.eviction_count ∧
      (∀ u, u ≠ setIndexOf 1 1 0 → st'.cache u = hitWitnessState.cache u) ∧
      (∀ j, j ≠ i →
        (st'.cache (setIndexOf 1 1 0)).get? j =
          (hitWitnessState.cache (setIndexOf 1 1 0)).get? j) ∧
      (st'.cache (setIndexOf 1 1 0)).get? i =
        ((hitWitnessState.cache (setIndexOf 1 1 0)).get? i).map (fun l =>
          { l with counter :=
              (scanMinMax (hitWitnessState.cache (setIndexOf 1 1 0))
                0 5000 (-1) 0).2.2 + 1 }) ∧
      (∀ n, ∃ stN, runAccesses 1 1 (List.replicate n 0) hitWitnessState = some stN ∧
        stN.miss_count = hitWitnessState.miss_count ∧
        stN.eviction_count = hitWitnessState.eviction_count) :=
  hit_frame_effect 1 1 0 hitWitnessState (by decide)

/-- After installing the target tag at line `i` of a set none of whose other
(old) valid lines carried it, the hit scan finds exactly line `i`. -/
theorem findHit_installed (lines lines' : List CacheLine) (T i : Nat)
    (lnew : CacheLine)
    (hcln : ∀ l ∈ lines, l.valid = true → l.tag ≠ T)
    (hi : lines'.get? i = some lnew) (hv : lnew.valid = true) (ht : lnew.tag = T)
    (hother : ∀ j, j ≠ i → lines'.get? j = lines.get? j) :
    findHit lines' T = some i := by
  rw [findHit_eq_some_iff]
  refine ⟨⟨lnew, hi, hv, ht⟩, ?_⟩
  intro j hj l' hl' hvl htl
  rw [hother j (Nat.ne_of_lt hj)] at hl'
  exact hcln l' (List.get?_mem hl') hvl htl

/-- Claim C8: a Modify event at a non-resident address is exactly one miss
followed by one hit.  The first of the two identical `accessData` calls
misses and installs the tag at some line `i`; the second call hits exactly
that line, moving only `hit_count` and line `i`'s counter. -/
theorem modify_miss_then_hit (s b a : Nat) (st st' : SimState)
    (hnres : ¬ resident s b a st)
    (hacc : accessData s b a st = some st') :
    st'.hit_count = st.hit_count ∧
    st'.miss_count = st.miss_count + 1 ∧
    ∃ i lnew, (st'.cache (setIndexOf s b a)).get? i = some lnew ∧
      lnew.valid = true ∧ lnew.tag = tagOf s b a ∧
      findHit (st'.cache (setIndexOf s b a)) (tagOf s b a) = some i ∧
      ∃ st'', accessData s b a st' = some st'' ∧
        st''.hit_count = st'.hit_count + 1 ∧
        st''.miss_count = st'.miss_count ∧
        st''.eviction_count = st'.eviction_count ∧
        (∀ j, j ≠ i → (st''.cache (setIndexOf s b a)).get? j =
          (st'.cache (setIndexOf s b a)).get? j) := by
  have hcln : ∀ l ∈ st.cache (setIndexOf s b a), l.valid = true →
      l.tag ≠ tagOf s b a := fun l hl hv ht => hnres ⟨l, hl, hv, ht⟩
  have hfh : findHit (st.cache (setIndexOf s b a)) (tagOf s b a) = none :=
    (findHit_eq_none_iff _ _).mpr hcln
  obtain ⟨hc1, hc2⟩ := accessData_miss_counts s b a st st' hfh hacc
  refine ⟨hc1, hc2, ?_⟩
  simp only [accessData, hfh] at hacc
  split at hacc
  · rename_i k hk
    cases hacc
    obtain ⟨hklen, _⟩ := findEmpty_eq_some _ _ hk
    have hget : (updateSets st.cache (setIndexOf s b a)
        (modifyLine (st.cache (setIndexOf s b a)) k (fun _ =>
          ⟨true, tagOf s b a,
            (scanMinMax (st.cache (setIndexOf s b a)) 0 5000 (-1) 0).2.2 + 1⟩))
        (setIndexOf s b a)).get? k =
        some ⟨true, tagOf s b a,
          (scanMinMax (st.cache (setIndexOf s b a)) 0 5000 (-1) 0).2.2 + 1⟩ := by
      rw [updateSets_same, modifyLine_get?, if_pos rfl,
        List.get?_eq_get hklen]
      rfl
    have hother : ∀ j, j ≠ k →
        (updateSets st.cache (setIndexOf s b a)
          (modifyLine (st.cache (setIndexOf s b a)) k (fun _ =>
            ⟨true, tagOf s b a,
              (scanMinMax (st.cache (setIndexOf s b a)) 0 5000 (-1) 0).2.2 + 1⟩))
          (setIndexOf s b a)).get? j = (st.cache (setIndexOf s b a)).get? j := by
      intro j hj
      rw [updateSets_same, modifyLine_get?, if_neg hj]
    have hfh' := findHit_installed _ _ _ k _ hcln hget rfl rfl hother
    refine ⟨k, _, hget, rfl, rfl, hfh', ?_⟩
    refine ⟨_, accessData_hit_eq s b a _ k hfh', rfl, rfl, rfl, ?_⟩
    intro j hj
    dsimp only
    rw [updateSets_same, modifyLine_get?, if_neg hj]
  · rename_i hke
    split at hacc
    · rename_i hrange
      cases hacc
      have hall : ∀ l ∈ st.cache (setIndexOf s b a), l.valid = true :=
        (findEmpty_eq_none_iff _).mp hke
      have hilen : (scanMinMax (st.cache (setIndexOf s b a))
          0 5000 (-1) 0).2.1.toNat < (st.cache (setIndexOf s b a)).length := by
        omega
      have hgetold := List.get?_eq_get hilen
      have hget : (updateSets st.cache (setIndexOf s b a)
          (modifyLine (st.cache (setIndexOf s b a))
            (scanMinMax (st.cache (setIndexOf s b a)) 0 5000 (-1) 0).2.1.toNat
            (fun l => { l with
              tag := tagOf s b a,
              counter :=
                (scanMinMax (st.cache (setIndexOf s b a)) 0 5000 (-1) 0).2.2 + 1 }))
          (setIndexOf s b a)).get?
            (scanMinMax (st.cache (setIndexOf s b a)) 0 5000 (-1) 0).2.1.toNat =
          some { (st.cache (setIndexOf s b a)).get ⟨_, hilen⟩ with
            tag := tagOf s b a,
            counter :=
              (scanMinMax (st.cache (setIndexOf s b a)) 0 5000 (-1) 0).2.2 + 1 } := by
        rw [updateSets_same, modifyLine_get?, if_pos rfl, hgetold]
        rfl
      have hother : ∀ j,
          j ≠ (scanMinMax (st.cache (setIndexOf s b a)) 0 5000 (-1) 0).2.1.toNat →
          (updateSets st.cache (setIndexOf s b a)
            (modifyLine (st.cache (setIndexOf s b a))
              (scanMinMax (st.cache (setIndexOf s b a)) 0 5000 (-1) 0).2.1.toNat
              (fun l => { l with
                tag := tagOf s b a,
                counter :=
                  (scanMinMax (st.cache (setIndexOf s b a)) 0 5000 (-1) 0).2.2 + 1 }))
            (setIndexOf s b a)).get? j = (st.cache (setIndexOf s b a)).get? j := by
        intro j hj
        rw [updateSets_same, modifyLine_get?, if_neg hj]
      have hvalid : ((st.cache (setIndexOf s b a)).get
          ⟨(scanMinMax (st.cache (setIndexOf s b a)) 0 5000 (-1) 0).2.1.toNat,
            hilen⟩).valid = true :=
        hall _ (List.get?_mem hgetold)
      have hfh' := findHit_installed _ _ _ _ _ hcln hget hvalid rfl hother
      refine ⟨_, _, hget, hvalid, rfl, hfh', ?_⟩
      refine ⟨_, accessData_hit_eq s b a _ _ hfh', rfl, rfl, rfl, ?_⟩
      intro j hj
      dsimp only
      rw [updateSets_same, modifyLine_get?, if_neg hj]
    · cases hacc

/-- Concrete resulting state for the C8 witness: address 0 accessed once from
the empty cache (geometry `s = 1`, `E = 1`, `b = 1`). -/
def modifyWitnessState : SimState :=
  (accessData 1 1 0 (initCache 1)).getD (initCache 1)

/-- Witness for C8: a Modify at address 0 (never seen before) from the empty
one-line cache. -/
theorem modify_miss_then_hit_witness :
    modifyWitnessState.hit_count = (initCache 1).hit_count ∧
    modifyWitnessState.miss_count = (initCache 1).miss_count + 1 ∧
    ∃ i lnew, (modifyWitnessState.cache (setIndexOf 1 1 0)).get? i = some lnew ∧
      lnew.valid = true ∧ lnew.tag = tagOf 1 1 0 ∧
      findHit (modifyWitnessState.cache (setIndexOf 1 1 0)) (tagOf 1 1 0) = some i ∧
      ∃ st'', accessData 1 1 0 modifyWitnessState = some st'' ∧
        st''.hit_count = modifyWitnessState.hit_count + 1 ∧
        st''.miss_count = modifyWitnessState.miss_count ∧
        st''.eviction_count = modifyWitnessState.eviction_count ∧
        (∀ j, j ≠ i → (st''.cache (setIndexOf 1 1 0)).get? j =
          (modifyWitnessState.cache (setIndexOf 1 1 0)).get? j) :=
  modify_miss_then_hit 1 1 0 (initCache 1) modifyWitnessState (by decide) (by rfl)

/-- Claim C9: in a direct-mapped cache (`E = 1`) reachable by any access
sequence, an access whose tag differs from the valid tag held by its set's
single line is a miss that increments both `miss_count` and `eviction_count`;
and once every line of the target set is valid, no completed miss there can
avoid incrementing `eviction_count`. -/
theorem direct_mapped_eviction (s b : Nat) (as : List Nat) (a : Nat)
    (st st' : SimState)
    (_hrun : runAccesses s b as (initCache 1) = some st)
    (hacc : accessData s b a st = some st') :
    ((∀ l ∈ st.cache (setIndexOf s b a),
        l.valid = true ∧ l.tag ≠ tagOf s b a) →
      st'.hit_count = st.hit_count ∧
      st'.miss_count = st.miss_count + 1 ∧
      st'.eviction_count = st.eviction_count + 1) ∧
    ((∀ l ∈ st.cache (setIndexOf s b a), l.valid = true) →
      st'.miss_count = st.miss_count + 1 →
      st'.eviction_count = st.eviction_count + 1) := by
  constructor
  · intro hfull
    have hfh : findHit (st.cache (setIndexOf s b a)) (tagOf s b a) = none :=
      (findHit_eq_none_iff _ _).mpr (fun l hl _ => (hfull l hl).2)
    have hfe : findEmpty (st.cache (setIndexOf s b a)) = none :=
      (findEmpty_eq_none_iff _).mpr (fun l hl => (hfull l hl).1)
    exact accessData_evict_counts s b a st st' hfh hfe hacc
  · intro hval hmiss
    have hfe : findEmpty (st.cache (setIndexOf s b a)) = none :=
      (findEmpty_eq_none_iff _).mpr hval
    cases hfh : findHit (st.cache (setIndexOf s b a)) (tagOf s b a) with
    | some i =>
      rw [accessData_hit_eq s b a st i hfh] at hacc
      cases hacc
      dsimp only at hmiss
      omega
    | none =>
      exact (accessData_evict_counts s b a st st' hfh hfe hacc).2.2

/-- Concrete state for the C9 witness: one access of address 0 from the empty
direct-mapped cache fills set 0 with tag 0. -/
def dmWitnessState : SimState :=
  (runAccesses 1 1 [0] (initCache 1)).getD (initCache 1)

/-- Concrete state after the C9 witness eviction: address 8 (tag 2) conflicts
with the resident tag 0. -/
def dmWitnessState' : SimState :=
  (accessData 1 1 8 dmWitnessState).getD (initCache 1)

/-- Witness for C9: after filling set 0 with tag 0, accessing address 8
(same set, tag 2) misses and evicts. -/
theorem direct_mapped_eviction_witness :
    ((∀ l ∈ dmWitnessState.cache (setIndexOf 1 1 8),
        l.valid = true ∧ l.tag ≠ tagOf 1 1 8) →
      dmWitnessState'.hit_count = dmWitnessState.hit_count ∧
      dmWitnessState'.miss_count = dmWitnessState.miss_count + 1 ∧
      dmWitnessState'.eviction_count = dmWitnessState.eviction_count + 1) ∧
    ((∀ l ∈ dmWitnessState.cache (setIndexOf 1 1 8), l.valid = true) →
      dmWitnessState'.miss_count = dmWitnessState.miss_count + 1 →
      dmWitnessState'.eviction_count = dmWitnessState.eviction_count + 1) :=
  direct_mapped_eviction 1 1 [0] 8 dmWitnessState dmWitnessState'
    (by rfl) (by rfl)

/-- No two valid lines of a set carry the same tag. -/
def distinctTags (lines : List CacheLine) : Prop :=
  ∀ p q lp lq, p ≠ q → lines.get? p = some lp → lines.get? q = some lq →
    lp.valid = true → lq.valid = true → lp.tag ≠ lq.tag

theorem distinctTags_init (E : Nat) :
    distinctTags (List.replicate E ⟨false, 0, 0⟩) := by
  intro p q lp lq _ hp _ hvp _
  rw [List.eq_of_mem_replicate (List.get?_mem hp)] at hvp
  cases hvp

/-- A line update that keeps every line's valid flag and tag preserves
tag-distinctness. -/
theorem distinctTags_modify_counter (lines : List CacheLine) (i : Nat)
    (f : CacheLine → CacheLine)
    (hf : ∀ l, (f l).valid = l.valid ∧ (f l).tag = l.tag)
    (hd : distinctTags lines) : distinctTags (modifyLine lines i f) := by
  intro p q lp lq hpq hp hq hvp hvq
  rw [modifyLine_get?] at hp hq
  by_cases hpi : p = i <;> by_cases hqi : q = i
  · exact absurd (hpi.trans hqi.symm) hpq
  · rw [if_pos hpi, Option.map_eq_some'] at hp
    rw [if_neg hqi] at hq
    obtain ⟨lp0, hp0, rfl⟩ := hp
    rw [(hf lp0).1] at hvp
    rw [(hf lp0).2]
    exact hd p q lp0 lq hpq hp0 hq hvp hvq
  · rw [if_neg hpi] at hp
    rw [if_pos hqi, Option.map_eq_some'] at hq
    obtain ⟨lq0, hq0, rfl⟩ := hq
    rw [(hf lq0).1] at hvq
    rw [(hf lq0).2]
    exact hd p q lp lq0 hpq hp hq0 hvp hvq
  · rw [if_neg hpi] at hp
    rw [if_neg hqi] at hq
    exact hd p q lp lq hpq hp hq hvp hvq

/-- Installing a tag that no valid line of the set carried preserves
tag-distinctness, whatever happens to the overwritten line's other fields. -/
theorem distinctTags_install (lines : List CacheLine) (i T : Nat)
    (f : CacheLine → CacheLine)
    (hT : ∀ l ∈ lines, l.valid = true → l.tag ≠ T)
    (hf : ∀ l, (f l).tag = T)
    (hd : distinctTags lines) : distinctTags (modifyLine lines i f) := by
  intro p q lp lq hpq hp hq hvp hvq
  rw [modifyLine_get?] at hp hq
  by_cases hpi : p = i <;> by_cases hqi : q = i
  · exact absurd (hpi.trans hqi.symm) hpq
  · rw [if_pos hpi, Option.map_eq_some'] at hp
    rw [if_neg hqi] at hq
    obtain ⟨lp0, _, rfl⟩ := hp
    rw [hf lp0]
    exact Ne.symm (hT lq (List.get?_mem hq) hvq)
  · rw [if_neg hpi] at hp
    rw [if_pos hqi, Option.map_eq_some'] at hq
    obtain ⟨lq0, _, rfl⟩ := hq
    rw [hf lq0]
    exact hT lp (List.get?_mem hp) hvp
  · rw [if_neg hpi] at hp
    rw [if_neg hqi] at hq
    exact hd p q lp lq hpq hp hq hvp hvq

/-- One successful `accessData` call preserves per-set tag-distinctness. -/
theorem accessData_preserves_distinct (s b a : Nat) (st st' : SimState)
    (hacc : accessData s b a st = some st')
    (hd : ∀ u, distinctTags (st.cache u)) :
    ∀ u, distinctTags (st'.cache u) := by
  intro u
  simp only [accessData] at hacc
  split at hacc
  · cases hacc
    dsimp only
    by_cases hu : u = setIndexOf s b a
    · subst hu
      rw [updateSets_same]
      exact distinctTags_modify_counter _ _ _ (fun l => ⟨rfl, rfl⟩) (hd _)
    · rw [updateSets_other _ _ _ _ hu]
      exact hd u
  · rename_i hfh
    split at hacc
    · cases hacc
      dsimp only
      by_cases hu : u = setIndexOf s b a
      · subst hu
        rw [updateSets_same]
        exact distinctTags_install _ _ _ _
          ((findHit_eq_none_iff _ _).mp hfh) (fun l => rfl) (hd _)
      · rw [updateSets_other _ _ _ _ hu]
        exact hd u
    · split at hacc
      · cases hacc
        dsimp only
        by_cases hu : u = setIndexOf s b a
        · subst hu
          rw [updateSets_same]
          exact distinctTags_install _ _ _ _
            ((findHit_eq_none_iff _ _).mp hfh) (fun l => rfl) (hd _)
        · rw [updateSets_other _ _ _ _ hu]
          exact hd u
      · cases hacc

theorem runAccesses_distinct (s b : Nat) (as : List Nat) (st st' : SimState)
    (hrun : runAccesses s b as st = some st')
    (hd : ∀ u, distinctTags (st.cache u)) :
    ∀ u, distinctTags (st'.cache u) := by
  induction as generalizing st with
  | nil =>
    simp only [runAccesses, Option.some.injEq] at hrun
    subst hrun
    exact hd
  | cons a rest ih =>
    simp only [runAccesses] at hrun
    cases ha : accessData s b a st with
    | none => rw [ha] at hrun; cases hrun
    | some st₁ =>
      rw [ha] at hrun
      exact ih st₁ hrun (accessData_preserves_distinct s b a st st₁ ha hd)

/-- Claim C10: from the all-invalid initial cache, every reachable state has
pairwise-distinct tags among the valid lines of each set (a tag is installed
only after the hit scan verified its absence), and an access whose tag
matches no valid line is a miss even when some invalid line's stored tag
field equals the target tag. -/
theorem tag_uniqueness_invariant (s b E : Nat) (as : List Nat) (st : SimState)
    (hrun : runAccesses s b as (initCache E) = some st) :
    (∀ u, distinctTags (st.cache u)) ∧
    (∀ a st',
      (∀ l ∈ st.cache (setIndexOf s b a), l.valid = true → l.tag ≠ tagOf s b a) →
      accessData s b a st = some st' →
      st'.hit_count = st.hit_count ∧ st'.miss_count = st.miss_count + 1) := by
  refine ⟨runAccesses_distinct s b as _ st hrun (fun u => distinctTags_init E), ?_⟩
  intro a st' hno hacc
  exact accessData_miss_counts s b a st st' ((findHit_eq_none_iff _ _).mpr hno) hacc

/-- Concrete state for the C10 witness: accesses 0, 4, 4 from the empty cache
(geometry `s = 1`, `E = 1`, `b = 1`; the last access evicts tag 0 for
tag 1). -/
def tagWitnessState : SimState :=
  (runAccesses 1 1 [0, 4, 4] (initCache 1)).getD (initCache 1)

/-- Witness for C10 at the concrete reachable state after accesses 0, 4, 4. -/
theorem tag_uniqueness_invariant_witness :
    (∀ u, distinctTags (tagWitnessState.cache u)) ∧
    (∀ a st',
      (∀ l ∈ tagWitnessState.cache (setIndexOf 1 1 a),
        l.valid = true → l.tag ≠ tagOf 1 1 a) →
      accessData 1 1 a tagWitnessState = some st' →
      st'.hit_count = tagWitnessState.hit_count ∧
      st'.miss_count = tagWitnessState.miss_count + 1) :=
  tag_uniqueness_invariant 1 1 1 [0, 4, 4] tagWitnessState (by rfl)

/-- State after `k ≥ 1` accesses of address 0 under geometry `s = 1`,
`E = 1`, `b = 1`: set 0's single line holds tag 0 with recency `k`
(one cold miss, then `k - 1` hits). -/
def fillState (k : Nat) : SimState :=
  { cache := updateSets (fun _ => List.replicate 1 ⟨false, 0, 0⟩) 0 [⟨true, 0, k⟩],
    hit_count := k - 1,
    miss_count := 1,
    eviction_count := 0 }

theorem fill_base : accessData 1 1 0 (initCache 1) = some (fillState 1) := rfl

theorem fill_step (k : Nat) (h1 : 1 ≤ k) (h5 : k < 5000) :
    accessData 1 1 0 (fillState k) = some (fillState (k + 1)) := by
  have hk0 : 0 < k := h1
  have hcache : (fillState k).cache (setIndexOf 1 1 0) = [⟨true, 0, k⟩] := rfl
  have hscan : scanMinMax [⟨true, 0, k⟩] 0 5000 (-1) 0 = (k, 0, k) := by
    simp [scanMinMax, h5, hk0]
  have hfh' : findHit ((fillState k).cache (setIndexOf 1 1 0)) (tagOf 1 1 0) =
      some 0 := by
    rw [hcache]
    simp [findHit, tagOf]
  rw [accessData_hit_eq 1 1 0 (fillState k) 0 hfh']
  have hidx : setIndexOf 1 1 0 = 0 := rfl
  simp only [hcache, hscan, modifyLine]
  unfold fillState
  simp only [hidx, SimState.mk.injEq]
  have hsub : k - 1 + 1 = k + 1 - 1 := by omega
  rw [hsub, updateSets_idem]

/-- Accessing address 0 `k` times (`1 ≤ k ≤ 5000`) from the empty cache
reaches `fillState k`, whose single line carries recency `k`. -/
theorem fill_reach (k : Nat) (h1 : 1 ≤ k) (h5 : k ≤ 5000) :
    runAccesses 1 1 (List.replicate k 0) (initCache 1) = some (fillState k) := by
  induction k with
  | zero => exact absurd h1 (by norm_num)
  | succ m ih =>
    cases Nat.eq_zero_or_pos m with
    | inl h0 =>
      subst h0
      simp [List.replicate, runAccesses, fill_base]
    | inr hm =>
      rw [List.replicate_succ', runAccesses_append, ih hm (by omega)]
      simp [runAccesses, fill_step m hm (by omega)]

/-- Claim C2 (refuted — code bug): the scan sentinel 5000 is NOT strictly
larger than every reachable recency.  After 5000 accesses of address 0
(geometry `s = 1`, `E = 1`, `b = 1`) the single line's counter equals the
sentinel; on the next access to the same set with a different tag the
min-recency scan selects no line (`minIndex` stays -1, outside `[0, E)`),
and the eviction branch takes the out-of-range error case (in the C code an
out-of-bounds write through index -1). -/
theorem sentinel_overflow_reachable :
    runAccesses 1 1 (List.replicate 5000 0) (initCache 1) = some (fillState 5000) ∧
    ((fillState 5000).cache (setIndexOf 1 1 8)).map CacheLine.counter = [5000] ∧
    (scanMinMax ((fillState 5000).cache (setIndexOf 1 1 8)) 0 5000 (-1) 0).2.1 = -1 ∧
    accessData 1 1 8 (fillState 5000) = none :=
  ⟨fill_reach 5000 (by norm_num) (le_refl _), rfl, rfl, rfl⟩

/-- Claim C1 (refuted — code bug): an access that takes the eviction branch
does not always overwrite the minimum-recency line.  At the reachable state
`fillState 5000` the access to address 8 satisfies both eviction-branch
preconditions (its tag is not resident and no line is empty), yet no line of
the set is overwritten: the C code writes through `minIndex = -1` (out of
bounds), modelled as the error result, so the whole run aborts instead of
evicting the (unique, minimal-recency) line 0. -/
theorem lru_eviction_branch_fails :
    runAccesses 1 1 (List.replicate 5000 0) (initCache 1) = some (fillState 5000) ∧
    findHit ((fillState 5000).cache (setIndexOf 1 1 8)) (tagOf 1 1 8) = none ∧
    findEmpty ((fillState 5000).cache (setIndexOf 1 1 8)) = none ∧
    runAccesses 1 1 (List.replicate 5000 0 ++ [8]) (initCache 1) = none := by
  refine ⟨fill_reach 5000 (by norm_num) (le_refl _), rfl, rfl, ?_⟩
  rw [runAccesses_append, fill_reach 5000 (by norm_num) (le_refl _)]
  rfl

end CacheSim
